import Mathlib

/-!
# ATS score tool (`main.go`): normaliser, scorer and score server

A shallow embedding of `preprocessText`, `calculateScore` and
`serveATSScore` of `main.go`, with the properties of the specification stated
over it.

Modelling conventions.

* A Go `string` handled rune by rune (`strings.ToLower`, `regexp`,
  `strings.Fields` all decode UTF-8) is the list of its runes, `GoString`.
  An invalid byte is the rune U+FFFD, as Go's decoder yields it.
* A `[]byte` and the HTTP body are lists of bytes, `Bytes`.
* `float64` is exact rational arithmetic (`ℚ`); `int` counters are `ℕ`
  (they are bounded by slice lengths and cannot overflow).
* `map[string]bool` is a total function with the zero value `false` at
  absent keys.
-/

namespace ATS

/-- A Go string as the sequence of runes a `range` loop decodes from it. -/
abbrev GoString := List Char

/-! ## `preprocessText` -/

/-- ASCII upper-case letter `'A' ≤ r ≤ 'Z'`. -/
def isUpperAZ (r : Char) : Bool := decide (65 ≤ r.toNat) && decide (r.toNat ≤ 90)

/-- Regexp range `a-z`. -/
def isLowerAZ (r : Char) : Bool := decide (97 ≤ r.toNat) && decide (r.toNat ≤ 122)

/-- Regexp range `0-9`. -/
def isDigit09 (r : Char) : Bool := decide (48 ≤ r.toNat) && decide (r.toNat ≤ 57)

/-- Perl class `\s` of Go's `regexp/syntax`: `[\t\n\f\r ]` (no vertical tab,
no non-ASCII space). -/
def isPerlSpace (r : Char) : Bool :=
  r.toNat == 9 || r.toNat == 10 || r.toNat == 12 || r.toNat == 13 || r.toNat == 32

/-- Go's `unicode.IsSpace`: the Unicode White_Space property, which
`strings.Fields` uses to find separators. -/
def isSpace (r : Char) : Bool :=
  (decide (9 ≤ r.toNat) && decide (r.toNat ≤ 13)) || r.toNat == 32 ||
  r.toNat == 0x85 || r.toNat == 0xA0 || r.toNat == 0x1680 ||
  (decide (0x2000 ≤ r.toNat) && decide (r.toNat ≤ 0x200A)) ||
  r.toNat == 0x2028 || r.toNat == 0x2029 || r.toNat == 0x202F ||
  r.toNat == 0x205F || r.toNat == 0x3000

/-- Go's `unicode.ToLower`: ASCII is handled inline (`'A'..'Z'` shifted by
`'a' - 'A'`, every other ASCII rune unchanged); a rune above `MaxASCII` is
looked up in the standard library's case table, the parameter `caseTable`. -/
def unicodeToLower (caseTable : Char → Char) (r : Char) : Char :=
  if r.toNat ≤ 0x7F then
    if isUpperAZ r then Char.ofNat (r.toNat + 32) else r
  else caseTable r

/-- Go's `strings.ToLower`: every rune mapped through `unicode.ToLower`. -/
def ToLower (caseTable : Char → Char) (s : GoString) : GoString :=
  s.map (unicodeToLower caseTable)

/-- The character class `[^a-z0-9\s]` of the pattern in `preprocessText`. -/
def stripClass (r : Char) : Bool := !(isLowerAZ r || isDigit09 r || isPerlSpace r)

/-- `regexp.MustCompile(cls+).ReplaceAllString(src, repl)` for a one-class
pattern `cls+`: scanning left to right, each maximal run of runes of the class
is one match and is replaced by `repl`; other runes are copied. `inMatch`
tells whether the previous rune belonged to the current match. -/
def replaceAllRuns (cls : Char → Bool) (repl : GoString) : Bool → GoString → GoString
  | _, [] => []
  | inMatch, r :: rest =>
    if cls r then
      if inMatch then replaceAllRuns cls repl true rest
      else repl ++ replaceAllRuns cls repl true rest
    else r :: replaceAllRuns cls repl false rest

/-- Go's `strings.FieldsFunc` loop: `cur` is the field being read (empty when
`start < 0`); a separator closes a non-empty field, any other rune extends
it, and the last field may end at the end of the string. -/
def fieldsLoop (f : Char → Bool) : GoString → GoString → List GoString
  | cur, [] => if cur = [] then [] else [cur]
  | cur, r :: rest =>
    if f r then
      if cur = [] then fieldsLoop f [] rest else cur :: fieldsLoop f [] rest
    else fieldsLoop f (cur ++ [r]) rest

/-- Go's `strings.Fields`: split around runs of `unicode.IsSpace` runes. -/
def Fields (s : GoString) : List GoString := fieldsLoop isSpace [] s

/-- Go's `strings.Join`. -/
def Join : List GoString → GoString → GoString
  | [], _ => []
  | [a], _ => a
  | a :: b :: rest, sep => a ++ sep ++ Join (b :: rest) sep

/-- `preprocessText` of `main.go`: lower-case, delete every match of
`[^a-z0-9\s]+`, split with `strings.Fields`. -/
def preprocessText (caseTable : Char → Char) (text : GoString) : List GoString :=
  let text := ToLower caseTable text
  let text := replaceAllRuns stripClass [] false text
  Fields text

/-! ## `calculateScore` -/

/-- A Go `map[string]bool`; reading an absent key gives `false`. -/
abbrev GoMap := GoString → Bool

/-- First loop of `calculateScore`: `jobSet[token] = true` for each job token. -/
def buildJobSet (jobTokens : List GoString) : GoMap :=
  jobTokens.foldl (fun jobSet token => Function.update jobSet token true) (fun _ => false)

/-- Second loop of `calculateScore`: `matches++` for each résumé token with
`jobSet[token]`. -/
def countMatches (jobSet : GoMap) (resumeTokens : List GoString) : ℕ :=
  resumeTokens.foldl (fun n token => if jobSet token then n + 1 else n) 0

/-- `calculateScore` of `main.go`. -/
def calculateScore (resumeTokens jobTokens : List GoString) : ℚ :=
  let jobSet := buildJobSet jobTokens
  let n := countMatches jobSet resumeTokens
  if jobTokens.length = 0 then 0
  else ((n : ℚ) / (jobTokens.length : ℚ)) * 100

/-- Number of positions of `R` (repeats counted separately) whose token
occurs somewhere in `J`: the quantity the specification calls `matches`. -/
def matchingPositions (R J : List GoString) : ℕ :=
  R.countP (fun token => decide (token ∈ J))

/-- Runes a token may contain: the ranges `a-z` and `0-9`. -/
def isTokenChar (r : Char) : Bool := isLowerAZ r || isDigit09 r

/-! ## Report formatting (`%.2f`) -/

/-- Nearest integer to a non-negative rational, ties to even (the rounding of
Go's decimal formatting). -/
def roundHalfEven (y : ℚ) : ℕ :=
  let f := (Int.floor y).toNat
  if y - f < 1 / 2 then f
  else if 1 / 2 < y - f then f + 1
  else if f % 2 = 0 then f else f + 1

/-- Decimal digit `d < 10` as a rune. -/
def digitChar (d : ℕ) : Char := Char.ofNat (48 + d % 10)

/-- The verb `%.2f` of the `Printf`/`Sprintf` calls in `main`, on the exact
value: sign, integer part, a point and two decimals. -/
def formatFixed2 (x : ℚ) : GoString :=
  let h := roundHalfEven (|x| * 100)
  (if x < 0 then ['-'] else []) ++ (Nat.toDigits 10 (h / 100)) ++
    ['.', digitChar (h % 100 / 10), digitChar (h % 10)]

/-! ## `serveATSScore` -/

/-- A Go `[]byte`. -/
abbrev Bytes := List UInt8

/-- The bytes of an ASCII string literal. -/
def asciiBytes (s : String) : Bytes := s.toList.map (fun c => c.toNat.toUInt8)

/-- What a handler has done to its `http.ResponseWriter`: the header map
(latest `Set` first), the status code once written, and the body bytes. -/
structure ResponseWriter where
  header : List (String × String)
  status : Option ℕ
  body : Bytes

/-- A fresh response: no header, no status written, empty body. -/
def ResponseWriter.fresh : ResponseWriter := ⟨[], none, []⟩

/-- `w.Header().Get(key)`. -/
def ResponseWriter.headerGet (w : ResponseWriter) (key : String) : Option String :=
  (w.header.find? (fun kv => kv.1 == key)).map (fun kv => kv.2)

/-- `w.Header().Set(key, value)`; headers are frozen once the status is written. -/
def ResponseWriter.headerSet (w : ResponseWriter) (key value : String) : ResponseWriter :=
  match w.status with
  | some _ => w
  | none => ⟨(key, value) :: w.header.filter (fun kv => !(kv.1 == key)), w.status, w.body⟩

/-- `w.Header().Del(key)`. -/
def ResponseWriter.headerDel (w : ResponseWriter) (key : String) : ResponseWriter :=
  match w.status with
  | some _ => w
  | none => ⟨w.header.filter (fun kv => !(kv.1 == key)), w.status, w.body⟩

/-- `w.WriteHeader(code)`: only the first call counts. -/
def ResponseWriter.writeHeader (w : ResponseWriter) (code : ℕ) : ResponseWriter :=
  match w.status with
  | some _ => w
  | none => ⟨w.header, some code, w.body⟩

/-- `w.Write(p)`: writes status 200 first when none was written. -/
def ResponseWriter.write (w : ResponseWriter) (p : Bytes) : ResponseWriter :=
  let w := w.writeHeader 200
  ⟨w.header, w.status, w.body ++ p⟩

/-- Go's `http.Error(w, error, code)`. -/
def httpError (w : ResponseWriter) (error : String) (code : ℕ) : ResponseWriter :=
  let w := w.headerDel "Content-Length"
  let w := w.headerSet "Content-Type" "text/plain; charset=utf-8"
  let w := w.headerSet "X-Content-Type-Options" "nosniff"
  let w := w.writeHeader code
  w.write (asciiBytes error ++ asciiBytes "\n")

/-- `http.StatusInternalServerError`. -/
def StatusInternalServerError : ℕ := 500

/-- `http.StatusOK`. -/
def StatusOK : ℕ := 200

/-- `serveATSScore` of `main.go`. `readFile` is `os.ReadFile`: `none` when it
returns an error (file absent or unreadable), `some data` otherwise. The
request is not inspected by the handler. `fmt.Fprintf` with the one verb `%s`
applied to `string(data)` writes the literal text before the verb, the bytes
of `data`, and the literal text after it. -/
def serveATSScore (readFile : String → Option Bytes) (w : ResponseWriter) : ResponseWriter :=
  let scoreFilePath := "ats_score.txt"
  match readFile scoreFilePath with
  | none => httpError w "Error reading ATS score" StatusInternalServerError
  | some data =>
    let w := w.headerSet "Content-Type" "text/html"
    let w := w.writeHeader StatusOK
    w.write (asciiBytes "<html><body><h1>ATS Score</h1><pre>" ++ data ++
      asciiBytes "</pre></body></html>")

/-! ## Lemmas on the scorer -/

theorem foldl_update_apply (J : List GoString) (m : GoMap) (t : GoString) :
    J.foldl (fun jobSet token => Function.update jobSet token true) m t
      = (m t || decide (t ∈ J)) := by
  induction J generalizing m with
  | nil => simp
  | cons a J ih =>
    rw [List.foldl_cons, ih]
    by_cases h : t = a
    · subst h; simp
    · have h2 : ¬ a = t := fun e => h e.symm
      simp [Function.update_noteq h, h, h2]

theorem buildJobSet_apply (J : List GoString) (t : GoString) :
    buildJobSet J t = decide (t ∈ J) := by
  unfold buildJobSet
  rw [foldl_update_apply]
  simp

theorem foldl_count_eq (m : GoMap) (R : List GoString) (k : ℕ) :
    R.foldl (fun n token => if m token then n + 1 else n) k = k + R.countP m := by
  induction R generalizing k with
  | nil => simp
  | cons a R ih =>
    rw [List.foldl_cons, ih, List.countP_cons]
    by_cases h : m a = true
    · simp [h]; omega
    · simp [h]

theorem countMatches_buildJobSet (R J : List GoString) :
    countMatches (buildJobSet J) R = matchingPositions R J := by
  unfold countMatches matchingPositions
  rw [foldl_count_eq, Nat.zero_add]
  congr 1
  funext t
  exact buildJobSet_apply J t

theorem calculateScore_eq (R J : List GoString) :
    calculateScore R J =
      if J.length = 0 then 0
      else ((matchingPositions R J : ℚ) / (J.length : ℚ)) * 100 := by
  unfold calculateScore
  simp only [countMatches_buildJobSet]

theorem matchingPositions_le_length (R J : List GoString) :
    matchingPositions R J ≤ R.length := by
  unfold matchingPositions
  exact List.countP_le_length _

theorem matchingPositions_self (X : List GoString) :
    matchingPositions X X = X.length := by
  unfold matchingPositions
  rw [List.countP_eq_length]
  intro a ha
  simpa using ha

theorem matchingPositions_perm {R R' J J' : List GoString}
    (hR : R'.Perm R) (hJ : J'.Perm J) :
    matchingPositions R' J' = matchingPositions R J := by
  unfold matchingPositions
  have hfun : (fun token => decide (token ∈ J')) = (fun token => decide (token ∈ J)) := by
    funext t
    simp [hJ.mem_iff]
  rw [hfun]
  exact hR.countP_eq _

/-! ## Lemmas on the normaliser -/

theorem replaceAllRuns_nil_eq_filter (cls : Char → Bool) (b : Bool) (s : GoString) :
    replaceAllRuns cls [] b s = s.filter (fun r => !cls r) := by
  induction s generalizing b with
  | nil => simp [replaceAllRuns]
  | cons r rest ih =>
    by_cases h : cls r = true
    · cases b <;> simp [replaceAllRuns, h, ih]
    · simp [replaceAllRuns, h, ih]

theorem isSpace_of_isPerlSpace {r : Char} (h : isPerlSpace r = true) : isSpace r = true := by
  simp only [isPerlSpace, Bool.or_eq_true, beq_iff_eq] at h
  simp only [isSpace, Bool.or_eq_true, Bool.and_eq_true, decide_eq_true_eq, beq_iff_eq]
  omega

theorem isSpace_of_isTokenChar {r : Char} (h : isTokenChar r = true) : isSpace r = false := by
  simp only [isTokenChar, isLowerAZ, isDigit09, Bool.or_eq_true, Bool.and_eq_true,
    decide_eq_true_eq] at h
  rw [← Bool.not_eq_true]
  simp only [isSpace, Bool.or_eq_true, Bool.and_eq_true, decide_eq_true_eq, beq_iff_eq]
  omega

theorem stripClass_of_isTokenChar {r : Char} (h : isTokenChar r = true) :
    stripClass r = false := by
  simp only [isTokenChar, Bool.or_eq_true] at h
  rcases h with h | h <;> simp [stripClass, h]

theorem stripClass_of_isPerlSpace {r : Char} (h : isPerlSpace r = true) :
    stripClass r = false := by
  simp [stripClass, h]

theorem unicodeToLower_of_isTokenChar (caseTable : Char → Char) {r : Char}
    (h : isTokenChar r = true) : unicodeToLower caseTable r = r := by
  simp only [isTokenChar, isLowerAZ, isDigit09, Bool.or_eq_true, Bool.and_eq_true,
    decide_eq_true_eq] at h
  have h1 : r.toNat ≤ 0x7F := by omega
  have h2 : isUpperAZ r = false := by
    rw [← Bool.not_eq_true]
    simp only [isUpperAZ, Bool.and_eq_true, decide_eq_true_eq]
    omega
  simp [unicodeToLower, h1, h2]

theorem unicodeToLower_of_isPerlSpace (caseTable : Char → Char) {r : Char}
    (h : isPerlSpace r = true) : unicodeToLower caseTable r = r := by
  simp only [isPerlSpace, Bool.or_eq_true, beq_iff_eq] at h
  have h1 : r.toNat ≤ 0x7F := by omega
  have h2 : isUpperAZ r = false := by
    rw [← Bool.not_eq_true]
    simp only [isUpperAZ, Bool.and_eq_true, decide_eq_true_eq]
    omega
  simp [unicodeToLower, h1, h2]

/-- A rune that survives the stripping step and is not a separator of
`strings.Fields` is in `a-z` or `0-9`. -/
theorem isTokenChar_of_kept {r : Char} (h1 : stripClass r = false) (h2 : isSpace r = false) :
    isTokenChar r = true := by
  by_cases hp : isPerlSpace r = true
  · rw [isSpace_of_isPerlSpace hp] at h2
    exact absurd h2 (by decide)
  · unfold stripClass at h1
    unfold isTokenChar
    cases hA : (isLowerAZ r || isDigit09 r) with
    | true => rfl
    | false =>
      rw [hA] at h1
      simp at h1
      exact absurd h1 hp

/-- Text made only of token runes and `\s` runes passes the first two steps
of `preprocessText` unchanged. -/
theorem preprocessText_of_clean (caseTable : Char → Char) (s : GoString)
    (h : ∀ r ∈ s, isTokenChar r = true ∨ isPerlSpace r = true) :
    preprocessText caseTable s = Fields s := by
  have hl : ToLower caseTable s = s := by
    unfold ToLower
    conv_rhs => rw [← List.map_id s]
    apply List.map_congr_left
    intro r hr
    rcases h r hr with h1 | h1
    · simpa using unicodeToLower_of_isTokenChar caseTable h1
    · simpa using unicodeToLower_of_isPerlSpace caseTable h1
  have hf : s.filter (fun r => !stripClass r) = s := by
    rw [List.filter_eq_self]
    intro r hr
    rcases h r hr with h1 | h1
    · simp [stripClass_of_isTokenChar h1]
    · simp [stripClass_of_isPerlSpace h1]
  unfold preprocessText
  simp only [hl, replaceAllRuns_nil_eq_filter, hf]

theorem fieldsLoop_spec (f : Char → Bool) (s cur : GoString)
    (hcur : ∀ r ∈ cur, f r = false) :
    ∀ tok ∈ fieldsLoop f cur s, tok ≠ [] ∧ ∀ r ∈ tok, (r ∈ cur ∨ r ∈ s) ∧ f r = false := by
  induction s generalizing cur with
  | nil =>
    intro tok htok
    by_cases hc : cur = []
    · simp [fieldsLoop, hc] at htok
    · simp only [fieldsLoop, hc, if_false, List.mem_singleton] at htok
      subst htok
      exact ⟨hc, fun r hr => ⟨Or.inl hr, hcur r hr⟩⟩
  | cons a rest ih =>
    intro tok htok
    by_cases ha : f a = true
    · have key : ∀ t ∈ fieldsLoop f [] rest,
          t ≠ [] ∧ ∀ r ∈ t, (r ∈ cur ∨ r ∈ a :: rest) ∧ f r = false := by
        intro t ht
        obtain ⟨h1, h2⟩ := ih [] (by simp) t ht
        refine ⟨h1, fun r hr => ?_⟩
        obtain ⟨h3, h4⟩ := h2 r hr
        rcases h3 with h3 | h3
        · simp at h3
        · exact ⟨Or.inr (List.mem_cons_of_mem _ h3), h4⟩
      by_cases hc : cur = []
      · simp only [fieldsLoop, ha, hc, if_true] at htok
        exact key tok htok
      · simp only [fieldsLoop, ha, hc, if_true, if_false, List.mem_cons] at htok
        rcases htok with htok | htok
        · subst htok
          exact ⟨hc, fun r hr => ⟨Or.inl hr, hcur r hr⟩⟩
        · exact key tok htok
    · have ha2 : f a = false := by simpa using ha
      simp only [fieldsLoop, ha, if_false] at htok
      have hcur2 : ∀ r ∈ cur ++ [a], f r = false := by
        intro r hr
        rcases List.mem_append.1 hr with h | h
        · exact hcur r h
        · simp at h; subst h; exact ha2
      obtain ⟨h1, h2⟩ := ih (cur ++ [a]) hcur2 tok htok
      refine ⟨h1, fun r hr => ?_⟩
      obtain ⟨h3, h4⟩ := h2 r hr
      refine ⟨?_, h4⟩
      rcases h3 with h3 | h3
      · rcases List.mem_append.1 h3 with h | h
        · exact Or.inl h
        · simp at h; subst h; exact Or.inr (List.mem_cons_self _ _)
      · exact Or.inr (List.mem_cons_of_mem _ h3)

theorem fieldsLoop_append (f : Char → Bool) (w rest cur : GoString)
    (hw : ∀ r ∈ w, f r = false) :
    fieldsLoop f cur (w ++ rest) = fieldsLoop f (cur ++ w) rest := by
  induction w generalizing cur with
  | nil => simp
  | cons a w ih =>
    have ha : f a = false := hw a (List.mem_cons_self _ _)
    have hw2 : ∀ r ∈ w, f r = false := fun r hr => hw r (List.mem_cons_of_mem _ hr)
    rw [List.cons_append, fieldsLoop]
    simp only [ha, Bool.false_eq_true, if_false]
    rw [ih _ hw2]
    simp

theorem fieldsLoop_sep (f : Char → Bool) (c : Char) (rest cur : GoString)
    (hc : f c = true) (hcur : cur ≠ []) :
    fieldsLoop f cur (c :: rest) = cur :: fieldsLoop f [] rest := by
  simp [fieldsLoop, hc, hcur]

theorem fieldsLoop_end (f : Char → Bool) (cur : GoString) (hcur : cur ≠ []) :
    fieldsLoop f cur [] = [cur] := by
  simp [fieldsLoop, hcur]

theorem fieldsLoop_join (f : Char → Bool) (c : Char) (hc : f c = true) (ts : List GoString)
    (hts : ∀ t ∈ ts, t ≠ [] ∧ ∀ r ∈ t, f r = false) :
    fieldsLoop f [] (Join ts [c]) = ts := by
  induction ts with
  | nil => simp [Join, fieldsLoop]
  | cons a ts ih =>
    obtain ⟨ha1, ha2⟩ := hts a (List.mem_cons_self _ _)
    cases ts with
    | nil =>
      have := fieldsLoop_append f a [] [] ha2
      simp only [List.append_nil, List.nil_append] at this
      simp only [Join]
      rw [this, fieldsLoop_end f a ha1]
    | cons b rest =>
      have ih2 := ih (fun t ht => hts t (List.mem_cons_of_mem _ ht))
      simp only [Join, List.append_assoc, List.singleton_append]
      rw [fieldsLoop_append f a _ [] ha2, List.nil_append, fieldsLoop_sep f c _ a hc ha1]
      simp only [Join] at ih2
      rw [ih2]

theorem mem_Join {ts : List GoString} {sep : GoString} {r : Char} (h : r ∈ Join ts sep) :
    r ∈ sep ∨ ∃ t ∈ ts, r ∈ t := by
  induction ts with
  | nil => simp [Join] at h
  | cons a ts ih =>
    cases ts with
    | nil =>
      simp only [Join] at h
      exact Or.inr ⟨a, List.mem_cons_self _ _, h⟩
    | cons b rest =>
      simp only [Join, List.append_assoc, List.mem_append] at h
      rcases h with h | h | h
      · exact Or.inr ⟨a, List.mem_cons_self _ _, h⟩
      · exact Or.inl h
      · rcases ih h with h2 | ⟨t, ht, hr⟩
        · exact Or.inl h2
        · exact Or.inr ⟨t, List.mem_cons_of_mem _ ht, hr⟩

/-- Every token of `preprocessText` is non-empty and made of token runes. -/
theorem preprocessText_tokens (caseTable : Char → Char) (text tok : GoString)
    (h : tok ∈ preprocessText caseTable text) :
    tok ≠ [] ∧ ∀ r ∈ tok, isTokenChar r = true := by
  unfold preprocessText Fields at h
  simp only [replaceAllRuns_nil_eq_filter] at h
  obtain ⟨h1, h2⟩ := fieldsLoop_spec isSpace _ [] (by simp) tok h
  refine ⟨h1, fun r hr => ?_⟩
  obtain ⟨h3, h4⟩ := h2 r hr
  rcases h3 with h3 | h3
  · simp at h3
  · have h5 := (List.mem_filter.1 h3).2
    exact isTokenChar_of_kept (by simpa using h5) h4

theorem length_cast_pos {J : List GoString} (hJ : J ≠ []) : (0 : ℚ) < (J.length : ℚ) := by
  have : 0 < J.length := List.length_pos.2 hJ
  exact_mod_cast this

theorem calculateScore_of_ne_nil (R : List GoString) {J : List GoString} (hJ : J ≠ []) :
    calculateScore R J = ((matchingPositions R J : ℚ) / (J.length : ℚ)) * 100 := by
  rw [calculateScore_eq, if_neg]
  exact fun h => hJ (List.length_eq_zero.1 h)

/-! ## The scorer: claims C1–C4, C8 -/

/-- C1, as stated, fails: with the résumé tokens `go go` and the single job
token `go` both résumé positions match, so the score is `2 / 1 * 100 = 200`,
outside `[0, 100]`. -/
theorem C1_score_exceeds_100 :
    ["go".toList] ≠ [] ∧
    calculateScore ["go".toList, "go".toList] ["go".toList] = 200 ∧
    ¬ (calculateScore ["go".toList, "go".toList] ["go".toList] ≤ 100) := by
  have h : calculateScore ["go".toList, "go".toList] ["go".toList] = 200 := by
    rw [calculateScore_eq]
    norm_num [matchingPositions]
  refine ⟨by decide, h, ?_⟩
  rw [h]
  norm_num

/-- C1, amended: for a non-empty job token sequence the score is at least `0`
and at most `100 * len(R) / len(J)`; it is at most `100` exactly when the
number of matching résumé positions does not exceed `len(J)`, in particular
whenever `len(R) ≤ len(J)`. -/
theorem C1_score_bounds (R J : List GoString) (hJ : J ≠ []) :
    0 ≤ calculateScore R J ∧
    calculateScore R J ≤ 100 * (R.length : ℚ) / (J.length : ℚ) ∧
    (calculateScore R J ≤ 100 ↔ matchingPositions R J ≤ J.length) ∧
    (R.length ≤ J.length → calculateScore R J ≤ 100) := by
  have hpos := length_cast_pos hJ
  have hm : (matchingPositions R J : ℚ) ≤ (R.length : ℚ) := by
    exact_mod_cast matchingPositions_le_length R J
  have hiff : calculateScore R J ≤ 100 ↔ matchingPositions R J ≤ J.length := by
    rw [calculateScore_of_ne_nil R hJ, div_mul_eq_mul_div, div_le_iff₀ hpos]
    constructor
    · intro h
      have h2 : (matchingPositions R J : ℚ) ≤ (J.length : ℚ) := by linarith
      exact_mod_cast h2
    · intro h
      have h2 : (matchingPositions R J : ℚ) ≤ (J.length : ℚ) := by exact_mod_cast h
      linarith
  refine ⟨?_, ?_, hiff, fun h => hiff.2 (le_trans (matchingPositions_le_length R J) h)⟩
  · rw [calculateScore_of_ne_nil R hJ]
    positivity
  · rw [calculateScore_of_ne_nil R hJ, div_mul_eq_mul_div, div_le_div_iff_of_pos_right hpos]
    linarith

/-- Witness for C1 (amended): résumé `go dev`, job `go qa`. -/
theorem C1_score_bounds_witness :
    ["go".toList, "qa".toList] ≠ [] ∧
    (0 ≤ calculateScore ["go".toList, "dev".toList] ["go".toList, "qa".toList] ∧
     calculateScore ["go".toList, "dev".toList] ["go".toList, "qa".toList]
        ≤ 100 * (["go".toList, "dev".toList].length : ℚ)
            / (["go".toList, "qa".toList].length : ℚ) ∧
     (calculateScore ["go".toList, "dev".toList] ["go".toList, "qa".toList] ≤ 100 ↔
        matchingPositions ["go".toList, "dev".toList] ["go".toList, "qa".toList]
          ≤ ["go".toList, "qa".toList].length) ∧
     (["go".toList, "dev".toList].length ≤ ["go".toList, "qa".toList].length →
        calculateScore ["go".toList, "dev".toList] ["go".toList, "qa".toList] ≤ 100)) :=
  ⟨by decide, C1_score_bounds _ _ (by decide)⟩

/-- C2: for a non-empty job token sequence `J`, `calculateScore R J` equals
`m / len(J) * 100`, with `m` the number of positions of `R` whose token occurs
in `J` and `len(J)` counted with duplicates. -/
theorem C2_score_formula (R J : List GoString) (hJ : J ≠ []) :
    calculateScore R J =
      ((R.countP (fun token => decide (token ∈ J)) : ℕ) : ℚ) / (J.length : ℚ) * 100 := by
  rw [calculateScore_of_ne_nil R hJ]
  rfl

/-- Witness for C2: résumé `go go dev`, job `go qa qa`. -/
theorem C2_score_formula_witness :
    ["go".toList, "qa".toList, "qa".toList] ≠ [] ∧
    calculateScore ["go".toList, "go".toList, "dev".toList]
        ["go".toList, "qa".toList, "qa".toList] =
      ((["go".toList, "go".toList, "dev".toList].countP
          (fun token => decide (token ∈ ["go".toList, "qa".toList, "qa".toList])) : ℕ) : ℚ)
        / (["go".toList, "qa".toList, "qa".toList].length : ℚ) * 100 :=
  ⟨by decide, C2_score_formula _ _ (by decide)⟩

/-- C3: with an empty job token sequence `calculateScore` returns exactly `0`
for every résumé token sequence; no division takes place. -/
theorem C3_empty_job_zero (R : List GoString) : calculateScore R [] = 0 := by
  simp [calculateScore]

/-- C4: for every non-empty token sequence `X`, duplicates allowed,
`calculateScore X X = 100`. -/
theorem C4_self_score (X : List GoString) (hX : X ≠ []) : calculateScore X X = 100 := by
  have hpos := length_cast_pos hX
  rw [calculateScore_of_ne_nil X hX, matchingPositions_self, div_self (ne_of_gt hpos)]
  norm_num

/-- Witness for C4: `go go dev`, a sequence with a repeated token. -/
theorem C4_self_score_witness :
    ["go".toList, "go".toList, "dev".toList] ≠ [] ∧
    calculateScore ["go".toList, "go".toList, "dev".toList]
      ["go".toList, "go".toList, "dev".toList] = 100 :=
  ⟨by decide, C4_self_score _ (by decide)⟩

/-- C8: the score does not depend on token order: permuting the résumé tokens
and the job tokens leaves `calculateScore` unchanged. -/
theorem C8_score_perm (R R' J J' : List GoString) (hR : R'.Perm R) (hJ : J'.Perm J) :
    calculateScore R' J' = calculateScore R J := by
  rw [calculateScore_eq, calculateScore_eq, matchingPositions_perm hR hJ, hJ.length_eq]

/-- Witness for C8: `dev go` against `qa go` versus `go dev` against `go qa`. -/
theorem C8_score_perm_witness :
    ["dev".toList, "go".toList].Perm ["go".toList, "dev".toList] ∧
    ["qa".toList, "go".toList].Perm ["go".toList, "qa".toList] ∧
    calculateScore ["dev".toList, "go".toList] ["qa".toList, "go".toList] =
      calculateScore ["go".toList, "dev".toList] ["go".toList, "qa".toList] :=
  ⟨List.Perm.swap _ _ _, List.Perm.swap _ _ _,
    C8_score_perm _ _ _ _ (List.Perm.swap _ _ _) (List.Perm.swap _ _ _)⟩

/-! ## The normaliser: claims C5, C6, C10 -/

/-- C5: every token returned by `preprocessText` is non-empty and consists
only of the characters `a`-`z` and `0`-`9`. -/
theorem C5_tokens_lowercase_alnum (caseTable : Char → Char) (text tok : GoString)
    (h : tok ∈ preprocessText caseTable text) :
    tok ≠ [] ∧ ∀ r ∈ tok, ('a' ≤ r ∧ r ≤ 'z') ∨ ('0' ≤ r ∧ r ≤ '9') := by
  obtain ⟨h1, h2⟩ := preprocessText_tokens caseTable text tok h
  refine ⟨h1, fun r hr => ?_⟩
  have h3 := h2 r hr
  simp only [isTokenChar, isLowerAZ, isDigit09, Bool.or_eq_true, Bool.and_eq_true,
    decide_eq_true_eq] at h3
  rcases h3 with ⟨ha, hb⟩ | ⟨ha, hb⟩
  · exact Or.inl ⟨ha, hb⟩
  · exact Or.inr ⟨ha, hb⟩

/-- Witness for C5: the token `go` of the text `Experienced Go developer.`
(an ASCII text, for which the case table is never consulted). -/
theorem C5_tokens_lowercase_alnum_witness :
    "go".toList ∈ preprocessText id "Experienced Go developer.".toList ∧
    ("go".toList ≠ [] ∧
      ∀ r ∈ "go".toList, ('a' ≤ r ∧ r ≤ 'z') ∨ ('0' ≤ r ∧ r ≤ '9')) :=
  ⟨by decide, C5_tokens_lowercase_alnum id "Experienced Go developer.".toList "go".toList
    (by decide)⟩

/-- C6: `preprocessText` is idempotent: joining its tokens with single spaces
and normalising again returns the same token sequence. -/
theorem C6_preprocess_idempotent (caseTable : Char → Char) (t : GoString) :
    preprocessText caseTable (Join (preprocessText caseTable t) [' '])
      = preprocessText caseTable t := by
  have hts := preprocessText_tokens caseTable t
  rw [preprocessText_of_clean]
  · exact fieldsLoop_join isSpace ' ' (by decide) _
      (fun tok htok => ⟨(hts tok htok).1,
        fun r hr => isSpace_of_isTokenChar ((hts tok htok).2 r hr)⟩)
  · intro r hr
    rcases mem_Join hr with h | ⟨tok, htok, hr2⟩
    · right
      simp only [List.mem_singleton] at h
      subst h
      decide
    · exact Or.inl ((hts tok htok).2 r hr2)

/-- C10, as stated, fails: the vertical tab is a separator for
`strings.Fields` but is not in the regexp class `\s`, so the stripping step
deletes it and `a<VT>b` becomes the single token `ab`. -/
theorem C10_vertical_tab_merges :
    isSpace (Char.ofNat 11) = true ∧
    (∀ r ∈ ['a'], isTokenChar r = true) ∧ (∀ r ∈ ['b'], isTokenChar r = true) ∧
    (∀ caseTable : Char → Char,
      preprocessText caseTable (['a'] ++ [Char.ofNat 11] ++ ['b']) = [['a', 'b']]) ∧
    [['a', 'b']] ≠ [['a'], ['b']] :=
  ⟨by decide, by decide, by decide, fun _ => rfl, by decide⟩

/-- C10, amended: for non-empty words `u`, `v` over `a-z0-9` and a character
`c` of the regexp class `\s` (tab, line feed, form feed, carriage return or
space), the stripping step keeps `u + c + v` unchanged and
`preprocessText (u + c + v) = [u, v]`. -/
theorem C10_ascii_space_delimits (caseTable : Char → Char) (u v : GoString) (c : Char)
    (hu : u ≠ []) (hv : v ≠ [])
    (hua : ∀ r ∈ u, isTokenChar r = true) (hva : ∀ r ∈ v, isTokenChar r = true)
    (hc : c = '\t' ∨ c = '\n' ∨ c = Char.ofNat 12 ∨ c = '\r' ∨ c = ' ') :
    replaceAllRuns stripClass [] false (ToLower caseTable (u ++ [c] ++ v)) = u ++ [c] ++ v ∧
    preprocessText caseTable (u ++ [c] ++ v) = [u, v] := by
  have hcs : isPerlSpace c = true := by
    rcases hc with h | h | h | h | h <;> subst h <;> decide
  have hclean : ∀ r ∈ u ++ [c] ++ v, isTokenChar r = true ∨ isPerlSpace r = true := by
    intro r hr
    simp only [List.mem_append, List.mem_singleton] at hr
    rcases hr with (h | h) | h
    · exact Or.inl (hua r h)
    · subst h; exact Or.inr hcs
    · exact Or.inl (hva r h)
  have hfields : Fields (u ++ [c] ++ v) = [u, v] := by
    unfold Fields
    rw [List.append_assoc, fieldsLoop_append isSpace u _ [] (fun r hr => isSpace_of_isTokenChar (hua r hr)),
      List.nil_append, List.singleton_append,
      fieldsLoop_sep isSpace c v u (isSpace_of_isPerlSpace hcs) hu]
    have h2 := fieldsLoop_append isSpace v [] [] (fun r hr => isSpace_of_isTokenChar (hva r hr))
    simp only [List.append_nil, List.nil_append] at h2
    rw [h2, fieldsLoop_end isSpace v hv]
  have hpre := preprocessText_of_clean caseTable _ hclean
  refine ⟨?_, by rw [hpre, hfields]⟩
  have hl : ToLower caseTable (u ++ [c] ++ v) = u ++ [c] ++ v := by
    unfold ToLower
    conv_rhs => rw [← List.map_id (u ++ [c] ++ v)]
    apply List.map_congr_left
    intro r hr
    rcases hclean r hr with h1 | h1
    · simpa using unicodeToLower_of_isTokenChar caseTable h1
    · simpa using unicodeToLower_of_isPerlSpace caseTable h1
  rw [hl, replaceAllRuns_nil_eq_filter, List.filter_eq_self]
  intro r hr
  rcases hclean r hr with h1 | h1
  · simp [stripClass_of_isTokenChar h1]
  · simp [stripClass_of_isPerlSpace h1]

/-- Witness for C10 (amended): `go<TAB>dev` (an ASCII text, for which the
case table is never consulted). -/
theorem C10_ascii_space_delimits_witness :
    replaceAllRuns stripClass [] false (ToLower id ("go".toList ++ ['\t'] ++ "dev".toList))
      = "go".toList ++ ['\t'] ++ "dev".toList ∧
    preprocessText id ("go".toList ++ ['\t'] ++ "dev".toList) = ["go".toList, "dev".toList] :=
  C10_ascii_space_delimits id "go".toList "dev".toList '\t' (by decide) (by decide)
    (by decide) (by decide) (Or.inl rfl)

/-! ## End-to-end example: claim C7 -/

/-- C7: `Go Developer needed` normalises to `go developer needed`,
`Experienced Go developer.` to `experienced go developer`; scoring the latter
against the former counts 2 matches, gives `2 / 3 * 100`, and `%.2f` prints
that value as `66.67`. -/
theorem C7_end_to_end (caseTable : Char → Char) :
    preprocessText caseTable "Go Developer needed".toList
      = ["go".toList, "developer".toList, "needed".toList] ∧
    preprocessText caseTable "Experienced Go developer.".toList
      = ["experienced".toList, "go".toList, "developer".toList] ∧
    countMatches (buildJobSet (preprocessText caseTable "Go Developer needed".toList))
      (preprocessText caseTable "Experienced Go developer.".toList) = 2 ∧
    calculateScore (preprocessText caseTable "Experienced Go developer.".toList)
      (preprocessText caseTable "Go Developer needed".toList) = 2 / 3 * 100 ∧
    formatFixed2 (calculateScore (preprocessText caseTable "Experienced Go developer.".toList)
      (preprocessText caseTable "Go Developer needed".toList)) = "66.67".toList := by
  have hj : preprocessText caseTable "Go Developer needed".toList
      = ["go".toList, "developer".toList, "needed".toList] := rfl
  have hr : preprocessText caseTable "Experienced Go developer.".toList
      = ["experienced".toList, "go".toList, "developer".toList] := rfl
  have hm : matchingPositions ["experienced".toList, "go".toList, "developer".toList]
      ["go".toList, "developer".toList, "needed".toList] = 2 := by decide
  have hs : calculateScore ["experienced".toList, "go".toList, "developer".toList]
      ["go".toList, "developer".toList, "needed".toList] = 2 / 3 * 100 := by
    rw [calculateScore_eq, hm]
    norm_num
  have hf : formatFixed2 (2 / 3 * 100) = "66.67".toList := by decide!
  rw [hj, hr, countMatches_buildJobSet, hm, hs, hf]
  exact ⟨rfl, rfl, rfl, rfl, rfl⟩

/-! ## The score server: claim C9 -/

/-- C9: `serveATSScore` answers with status 500 exactly when reading the
report file fails; otherwise, for every content `d`, with status 200,
`Content-Type: text/html` and the body
`<html><body><h1>ATS Score</h1><pre>` + `d` + `</pre></body></html>`, the
bytes of `d` unchanged. -/
theorem C9_serve_response (readFile : String → Option Bytes) :
    ((serveATSScore readFile ResponseWriter.fresh).status = some 500 ↔
        readFile "ats_score.txt" = none) ∧
    ∀ d : Bytes, readFile "ats_score.txt" = some d →
      (serveATSScore readFile ResponseWriter.fresh).status = some 200 ∧
      (serveATSScore readFile ResponseWriter.fresh).headerGet "Content-Type"
        = some "text/html" ∧
      (serveATSScore readFile ResponseWriter.fresh).body
        = asciiBytes "<html><body><h1>ATS Score</h1><pre>" ++ d ++
          asciiBytes "</pre></body></html>" := by
  cases h : readFile "ats_score.txt" with
  | none =>
    simp [serveATSScore, h, httpError, ResponseWriter.fresh, ResponseWriter.headerDel,
      ResponseWriter.headerSet, ResponseWriter.writeHeader, ResponseWriter.write,
      StatusInternalServerError]
  | some data =>
    simp [serveATSScore, h, ResponseWriter.fresh, ResponseWriter.headerGet,
      ResponseWriter.headerSet, ResponseWriter.writeHeader, ResponseWriter.write, StatusOK]

end ATS
